import Mathlib

/-!
Shallow embedding of `PCVDepositAggregator` (contracts/pcv/PCVDepositAggregator.sol)
and proofs about its registry, rebalancing, deposit and withdrawal logic.

Modelling conventions:
* Addresses are natural numbers; `uint256` values are `Nat`.  Solidity 0.8
  checked arithmetic reverts on underflow and on division by zero; we model a
  revert as `Except.error`.  Subtractions that are syntactically guarded in
  the source (so that they can never underflow) are written as plain `Nat`
  subtraction, with a comment pointing at the guard; unguarded subtractions
  and divisions go through `usub`/`udiv`, which model the revert.
  Additions cannot overflow at the magnitudes the contract handles (token
  balances are bounded by an ERC20 total supply), so they are plain `Nat`
  addition.
* `int256` values (`amountFromTarget`, `distancesToTargets`) are `Int`;
  `toUint256` of a negative value reverts, and every `toUint256` in the
  source is guarded, which the embedding reflects.
* The external `IPCVDeposit` sub-contracts are modelled by the balance each
  registered deposit reports (`Dep.bal`); `IPCVDeposit.withdraw(this, amt)`
  moves `amt` from the sub-deposit to the aggregator and
  `safeTransfer(dep, amt)` followed by `IPCVDeposit.deposit()` moves `amt`
  from the aggregator into the sub-deposit.  Only registered deposits carry a
  modelled balance; every internal call site checks registration first.
* Each state-changing operation also returns the list of external token
  movements it performs (`Op`), so that ordering/frame claims are statable.
-/

namespace PCVAgg

/-- A registered sub-deposit: its address, its entry in `pcvDepositWeights`,
and the balance reported by `IPCVDeposit(addr).balance()`. -/
structure Dep where
  addr : Nat
  weight : Nat
  bal : Nat
deriving Repr, DecidableEq

/-- State of a `PCVDepositAggregator`: the `EnumerableSet` of deposits (in
insertion order, fused with the weight mapping and the live sub-deposit
balances), `bufferWeight`, the cached `totalWeight`, and the aggregator's own
idle token balance (`balance()` = `IERC20(token).balanceOf(address(this))`). -/
structure Agg where
  deposits : List Dep
  bufferWeight : Nat
  totalWeight : Nat
  aggBal : Nat
deriving Repr, DecidableEq

/-- Revert reasons of the contract, plus the implicit Solidity 0.8 panics. -/
inductive Err where
  | depositAlreadyAdded
  | depositDoesNotExist
  | noRebalanceNeeded
  | cannotRebalance
  | notEnoughBalance
  | underflow
  | divByZero
deriving Repr, DecidableEq

/-- External token movements performed by an operation:
`subWithdraw a n` is `IPCVDeposit(a).withdraw(address(this), n)`,
`subTransfer a n` is `IERC20(token).safeTransfer(a, n)` followed by
`IPCVDeposit(a).deposit()`, and `payout n` is the final
`IERC20(token).safeTransfer(to, n)` of `withdraw`. -/
inductive Op where
  | subWithdraw (addr amt : Nat)
  | subTransfer (addr amt : Nat)
  | payout (amt : Nat)
deriving Repr, DecidableEq

/-- Checked `uint256` subtraction: reverts on underflow. -/
def usub (a b : Nat) : Except Err Nat :=
  if b ≤ a then .ok (a - b) else .error .underflow

/-- Checked `uint256` division: reverts on a zero divisor. -/
def udiv (a b : Nat) : Except Err Nat :=
  if b = 0 then .error .divByZero else .ok (a / b)

/-- Membership test `pcvDepositAddresses.contains` / weight-and-balance lookup for a
registered deposit. -/
def findDep (s : Agg) (a : Nat) : Option Dep :=
  s.deposits.find? (fun d => d.addr = a)

/-- Source `_getUnderlyingBalances().sum()`. -/
def underlyingSum (s : Agg) : Nat :=
  (s.deposits.map Dep.bal).sum

/-- View `getTotalBalance()`: sum of sub-deposit balances plus `balance()`. -/
def totalBalance (s : Agg) : Nat :=
  underlyingSum s + s.aggBal

/-- Sum of the weights of all registered deposits. -/
def weightSum (s : Agg) : Nat :=
  (s.deposits.map Dep.weight).sum

/-- The spec's registry invariant:
`totalWeight == bufferWeight + sum(weight for all SubDeposit)`. -/
def wfWeights (s : Agg) : Prop :=
  s.totalWeight = s.bufferWeight + weightSum s

instance (s : Agg) : Decidable (wfWeights s) := by
  unfold wfWeights; infer_instance

/-- The quantities `idealAmount` / `idealDepositBalance` / `optimalUnderlyingBalances[i]`:
`totalBalance * weight / totalWeight` with truncating division
(`amountFromTarget` writes the product as `weight * totalBalance`, equal by
commutativity). -/
def idealBal (tb tw w : Nat) : Nat := tb * w / tw

/-- Entry `distancesToTargets[i]` as computed by `getAllAmountsFromTargets`:
`idealAmount - actualBalance` (positive = under target). -/
def distOf (tb tw : Nat) (d : Dep) : Int :=
  (idealBal tb tw d.weight : Int) - (d.bal : Int)

/-- View `getAllAmountsFromTargets()`: one signed distance per registered deposit,
in registry order.  The loop body divides by `totalWeight`, so it reverts on
a zero `totalWeight` exactly when the registry is nonempty. -/
def getAllAmountsFromTargets (s : Agg) : Except Err (List Int) :=
  if s.deposits.length ≠ 0 ∧ s.totalWeight = 0 then .error .divByZero
  else .ok (s.deposits.map (distOf (totalBalance s) s.totalWeight))

/-- View `amountFromTarget(pcvDeposit)`: `actualBalance - idealBalance`.  The
model only tracks balances of registered deposits, so the view is defined on
registered addresses; every internal caller checks registration first. -/
def amountFromTarget (s : Agg) (a : Nat) : Except Err Int :=
  match findDep s a with
  | none => .error .depositDoesNotExist
  | some d =>
      if s.totalWeight = 0 then .error .divByZero
      else .ok ((d.bal : Int) - (idealBal (totalBalance s) s.totalWeight d.weight : Int))

/-- Source `_rebalanceSingle(pcvDeposit)`.  The sub-deposit withdraw in the
over-target branch moves `distanceToTarget ≤ bal` tokens (the deposit holds
them by construction), and the `safeTransfer` in the under-target branch is
guarded by the explicit aggregator-liquidity check, so both balance updates
are exact. -/
def rebalanceSingle (s : Agg) (a : Nat) : Except Err (Agg × List Op) :=
  match findDep s a with
  | none => .error .depositDoesNotExist
  | some _ =>
      match amountFromTarget s a with
      | .error e => .error e
      | .ok distanceToTarget =>
          if distanceToTarget = 0 then .error .noRebalanceNeeded
          else if distanceToTarget < 0 ∧ (s.aggBal : Int) < -distanceToTarget then
            .error .cannotRebalance
          else if 0 < distanceToTarget then
            .ok ({ s with
                    deposits := s.deposits.map (fun e =>
                      if e.addr = a then { e with bal := e.bal - distanceToTarget.toNat } else e),
                    aggBal := s.aggBal + distanceToTarget.toNat },
                 [Op.subWithdraw a distanceToTarget.toNat])
          else
            .ok ({ s with
                    deposits := s.deposits.map (fun e =>
                      if e.addr = a then { e with bal := e.bal + (-distanceToTarget).toNat } else e),
                    aggBal := s.aggBal - (-distanceToTarget).toNat },
                 [Op.subTransfer a (-distanceToTarget).toNat])

/-- Second loop of `_rebalance`: the deposit phase.  Walks the registry with
the snapshot distances; a positive distance triggers
`safeTransfer(deposit, distance)` + `IPCVDeposit.deposit()`, which reverts if
the aggregator's balance at that moment cannot cover the transfer. -/
def rebalanceDepositPhase : Nat → List (Dep × Int) → Except Err (Nat × List Dep × List Op)
  | b, [] => .ok (b, [], [])
  | b, (d, dist) :: rest =>
      if 0 < dist then
        if b < dist.toNat then .error .underflow
        else
          match rebalanceDepositPhase (b - dist.toNat) rest with
          | .error e => .error e
          | .ok (b', ds, ops) =>
              .ok (b', { d with bal := d.bal + dist.toNat } :: ds,
                   Op.subTransfer d.addr dist.toNat :: ops)
      else
        match rebalanceDepositPhase b rest with
        | .error e => .error e
        | .ok (b', ds, ops) => .ok (b', d :: ds, ops)

/-- Source `_rebalance()`: take the snapshot distances, process all withdrawals
(negative distances) first, then all deposits (positive distances).  A
withdrawal pulls `-distance = bal - ideal ≤ bal` tokens, so its balance
update is exact. -/
def rebalance (s : Agg) : Except Err (Agg × List Op) :=
  match getAllAmountsFromTargets s with
  | .error e => .error e
  | .ok dists =>
      let tb := totalBalance s
      let tw := s.totalWeight
      let deps1 := s.deposits.map (fun d =>
        if distOf tb tw d < 0 then { d with bal := d.bal - (-(distOf tb tw d)).toNat } else d)
      let pulled := (s.deposits.map (fun d =>
        if distOf tb tw d < 0 then (-(distOf tb tw d)).toNat else 0)).sum
      let wOps := s.deposits.filterMap (fun d =>
        if distOf tb tw d < 0 then some (Op.subWithdraw d.addr (-(distOf tb tw d)).toNat) else none)
      match rebalanceDepositPhase (s.aggBal + pulled) (deps1.zip dists) with
      | .error e => .error e
      | .ok (b', ds, dOps) => .ok ({ s with deposits := ds, aggBal := b' }, wOps ++ dOps)

/-- Loop of `deposit()` over the scaled amounts.  Modelled from the spec:
`Decimal.ratio`/`mul`/`asUint256` (external/Decimal.sol is not under src/),
which the spec summarises as
`amountToSend(i) = surplus * amountNeeded(i) / totalAmountNeeded`; a zero
scaled amount is skipped.  `_depositToUnderlying` transfers from the
aggregator (reverting if its balance is insufficient) and calls
`IPCVDeposit.deposit()`. -/
def depositLoop (surplus totalNeeded : Nat) : Nat → List (Dep × Nat) → Except Err (Nat × List Dep × List Op)
  | b, [] => .ok (b, [], [])
  | b, (d, need) :: rest =>
      let amountToSend := surplus * need / totalNeeded
      if 0 < amountToSend then
        if b < amountToSend then .error .underflow
        else
          match depositLoop surplus totalNeeded (b - amountToSend) rest with
          | .error e => .error e
          | .ok (b', ds, ops) =>
              .ok (b', { d with bal := d.bal + amountToSend } :: ds,
                   Op.subTransfer d.addr amountToSend :: ops)
      else
        match depositLoop surplus totalNeeded b rest with
        | .error e => .error e
        | .ok (b', ds, ops) => .ok (b', d :: ds, ops)

/-- Source `deposit()`: fill the buffer first; if the idle balance exceeds the
optimal buffer the source computes
`amountAvailableForUnderlyingDeposits = optimalAggregatorBalance - actualAggregatorBalance`
(line 88), an unsigned subtraction taken in the branch where
`actualAggregatorBalance > optimalAggregatorBalance`.  `amountsNeeded` is
`optimalUnderlyingBalances.positiveDifference(underlyingBalances)`
(libs/UintArrayOps.sol is not under src/; modelled from the spec as
`max(0, idealBalance - actualBalance)`, which is truncating `Nat`
subtraction), and `Decimal.ratio` reverts on a zero denominator. -/
def deposit (s : Agg) : Except Err (Agg × List Op) :=
  let actualAggregatorBalance := s.aggBal
  let underlyingBalances := s.deposits.map Dep.bal
  let uSum := underlyingBalances.sum
  let tb := uSum + actualAggregatorBalance
  match udiv (s.bufferWeight * tb) s.totalWeight with
  | .error e => .error e
  | .ok optimalAggregatorBalance =>
      if actualAggregatorBalance ≤ optimalAggregatorBalance then .ok (s, [])
      else
        match usub optimalAggregatorBalance actualAggregatorBalance with
        | .error e => .error e
        | .ok amountAvailableForUnderlyingDeposits =>
            let optimalUnderlyingBalances := s.deposits.map (fun d => idealBal tb s.totalWeight d.weight)
            let amountsNeeded := optimalUnderlyingBalances.zipWith (fun x y => x - y) underlyingBalances
            let totalAmountNeeded := amountsNeeded.sum
            if totalAmountNeeded = 0 then .error .divByZero
            else
              match depositLoop amountAvailableForUnderlyingDeposits totalAmountNeeded
                      actualAggregatorBalance (s.deposits.zip amountsNeeded) with
              | .error e => .error e
              | .ok (b', ds, ops) => .ok ({ s with deposits := ds, aggBal := b' }, ops)

/-- Source `withdraw(to, amount)`.  Fast path when the idle balance strictly exceeds
`amount`; otherwise require `totalBalance ≥ amount`, compute each deposit's
post-withdraw ideal balance, pull from every deposit whose current balance
exceeds it (`actual - ideal` is exact by the comparison guard; likewise
`amount - aggregatorBalance` and
`totalUnderlyingBalance - amountNeededFromUnderlying` are guarded by the
slow-path condition and the require), and finally pay `amount` out. -/
def withdraw (s : Agg) (amount : Nat) : Except Err (Agg × List Op) :=
  let aggregatorBalance := s.aggBal
  if amount < aggregatorBalance then
    .ok ({ s with aggBal := s.aggBal - amount }, [Op.payout amount])
  else
    let underlyingBalances := s.deposits.map Dep.bal
    let totalUnderlyingBalance := underlyingBalances.sum
    let tb := totalUnderlyingBalance + aggregatorBalance
    if tb < amount then .error .notEnoughBalance
    else if s.deposits.length ≠ 0 ∧ s.totalWeight = 0 then .error .divByZero
    else
      let amountNeededFromUnderlying := amount - aggregatorBalance
      let totalUnderlyingBalanceAfterWithdraw := totalUnderlyingBalance - amountNeededFromUnderlying
      let ideal := fun d : Dep => totalUnderlyingBalanceAfterWithdraw * d.weight / s.totalWeight
      let pulled := (s.deposits.map (fun d => d.bal - ideal d)).sum
      let deps1 := s.deposits.map (fun d => if ideal d < d.bal then { d with bal := ideal d } else d)
      let wOps := s.deposits.filterMap (fun d =>
        if ideal d < d.bal then some (Op.subWithdraw d.addr (d.bal - ideal d)) else none)
      match usub (s.aggBal + pulled) amount with
      | .error e => .error e
      | .ok b' => .ok ({ s with deposits := deps1, aggBal := b' }, wOps ++ [Op.payout amount])

/-- Source `_addPCVDeposit(depositAddress, weight)`: duplicate check, append to the
`EnumerableSet`, record the weight, `totalWeight += weight`.  `d.bal` is the
balance the external sub-deposit currently reports. -/
def addPCVDeposit (s : Agg) (d : Dep) : Except Err Agg :=
  if (findDep s d.addr).isSome then .error .depositAlreadyAdded
  else .ok { s with deposits := s.deposits ++ [d],
                    totalWeight := s.totalWeight + d.weight }

/-- Source `setBufferWeight(newBufferWeight)`: signed delta against the old buffer
weight; `toUint256` of a negative total reverts. -/
def setBufferWeight (s : Agg) (newBufferWeight : Nat) : Except Err Agg :=
  let difference : Int := (newBufferWeight : Int) - (s.bufferWeight : Int)
  let t : Int := (s.totalWeight : Int) + difference
  if t < 0 then .error .underflow
  else .ok { s with bufferWeight := newBufferWeight, totalWeight := t.toNat }

/-- Source `setPCVDepositWeight(depositAddress, newDepositWeight)`. -/
def setPCVDepositWeight (s : Agg) (a : Nat) (newWeight : Nat) : Except Err Agg :=
  match findDep s a with
  | none => .error .depositDoesNotExist
  | some d =>
      let difference : Int := (newWeight : Int) - (d.weight : Int)
      let t : Int := (s.totalWeight : Int) + difference
      if t < 0 then .error .underflow
      else .ok { s with
                  deposits := s.deposits.map (fun e =>
                    if e.addr = a then { e with weight := newWeight } else e),
                  totalWeight := t.toNat }

/-- Removal in `EnumerableSet.remove` style: overwrite the removed slot with the last element
and pop the last slot. -/
def swapRemove (l : List Dep) (a : Nat) : List Dep :=
  match l.findIdx? (fun d => d.addr = a) with
  | none => l
  | some i => (l.set i (l.getLastD ⟨0, 0, 0⟩)).dropLast

/-- Source `_removePCVDeposit(depositAddress)`: short-circuit when both the weight
and the live balance are zero; otherwise zero the weight (decrementing
`totalWeight`, a checked subtraction), force a single-deposit rebalance to
drain the deposit, then remove it from the set. -/
def removePCVDeposit (s : Agg) (a : Nat) : Except Err (Agg × List Op) :=
  match findDep s a with
  | none => .error .depositDoesNotExist
  | some d =>
      if d.weight = 0 ∧ d.bal = 0 then
        .ok ({ s with deposits := swapRemove s.deposits a }, [])
      else if s.totalWeight < d.weight then .error .underflow
      else
        let s1 : Agg := { s with
          totalWeight := s.totalWeight - d.weight,
          deposits := s.deposits.map (fun e =>
            if e.addr = a then { e with weight := 0 } else e) }
        match rebalanceSingle s1 a with
        | .error e => .error e
        | .ok (s2, ops) => .ok ({ s2 with deposits := swapRemove s2.deposits a }, ops)

/-- Constructor loop: `for (i=0; i < _initialPCVDepositAddresses.length; i++)
_addPCVDeposit(...)`. -/
def mkAggregatorLoop : List Dep → Agg → Except Err Agg
  | [], s => .ok s
  | d :: rest, s =>
      match addPCVDeposit s d with
      | .error e => .error e
      | .ok s' => mkAggregatorLoop rest s'

/-- The constructor: starts with `totalWeight = bufferWeight` and an empty
set, then `_addPCVDeposit`s each initial (address, weight) pair; the model
fuses the two equal-length constructor arrays into one list of deposits
(each carrying the balance its external contract reports). -/
def mkAggregator (init : List Dep) (bufferWeight aggBal : Nat) : Except Err Agg :=
  mkAggregatorLoop init
    { deposits := [], bufferWeight := bufferWeight, totalWeight := bufferWeight, aggBal := aggBal }

/-- Positive part of a snapshot distance: the amount a deposit-phase transfer
sends. -/
def posPart (z : Int) : Nat := if 0 < z then z.toNat else 0

/-- Negative part of a snapshot distance: the amount a withdrawal-phase pull
collects. -/
def negPart (z : Int) : Nat := if z < 0 then (-z).toNat else 0

/-! ### Concrete sample states used in witnesses and counterexamples -/

def c2s : Agg := { deposits := [⟨1, 1, 0⟩], bufferWeight := 1, totalWeight := 2, aggBal := 10 }

def c3s : Agg := { deposits := [⟨1, 1, 10⟩], bufferWeight := 1, totalWeight := 2, aggBal := 10 }

def c3s1 : Agg := { deposits := [⟨1, 1, 5⟩], bufferWeight := 1, totalWeight := 2, aggBal := 5 }

def c6s : Agg := { deposits := [⟨1, 1, 5⟩], bufferWeight := 1, totalWeight := 2, aggBal := 5 }

def c7s : Agg := { deposits := [⟨1, 1, 9⟩], bufferWeight := 1, totalWeight := 2, aggBal := 1 }

def c1s : Agg := { deposits := [⟨1, 2, 3⟩, ⟨2, 1, 0⟩], bufferWeight := 1, totalWeight := 4, aggBal := 5 }

def c4s : Agg := { deposits := [⟨1, 2, 9⟩, ⟨2, 1, 0⟩], bufferWeight := 1, totalWeight := 4, aggBal := 3 }

def c5s : Agg := { deposits := [⟨1, 1, 0⟩], bufferWeight := 1, totalWeight := 2, aggBal := 10 }

def c5s1 : Agg := { deposits := [⟨1, 1, 5⟩], bufferWeight := 1, totalWeight := 2, aggBal := 5 }

def c9s : Agg := { deposits := [⟨1, 1, 5⟩], bufferWeight := 0, totalWeight := 1, aggBal := 0 }

def c9sB : Agg := { deposits := [⟨1, 1, 5⟩, ⟨2, 1, 0⟩], bufferWeight := 0, totalWeight := 2, aggBal := 0 }

def c10s : Agg := { deposits := [⟨1, 1, 5⟩, ⟨2, 2, 1⟩], bufferWeight := 1, totalWeight := 4, aggBal := 6 }

/-! ### Helper lemmas -/

theorem usub_error_eq {a b : Nat} {e : Err} (h : usub a b = .error e) : e = Err.underflow := by
  unfold usub at h
  split at h
  · simp at h
  · injection h with h
    exact h.symm

/-- In a registry with no duplicate addresses, `find?` by a member's address
returns that member. -/
theorem find?_addr_of_nodup {l : List Dep} {d : Dep}
    (hnd : (l.map Dep.addr).Nodup) (hmem : d ∈ l) :
    l.find? (fun e => e.addr = d.addr) = some d := by
  induction l with
  | nil => cases hmem
  | cons h t ih =>
      rw [List.map_cons, List.nodup_cons] at hnd
      by_cases hh : h.addr = d.addr
      · have hd : d = h := by
          rcases List.mem_cons.mp hmem with h1 | h1
          · exact h1
          · exact absurd (hh ▸ List.mem_map_of_mem Dep.addr h1) hnd.1
        subst hd
        exact List.find?_cons_of_pos t (by simp)
      · have hd : d ∈ t := by
          rcases List.mem_cons.mp hmem with h1 | h1
          · exact absurd (h1 ▸ rfl) hh
          · exact h1
        rw [List.find?_cons_of_neg t (by simp [hh])]
        exact ih hnd.2 hd

/-- View `amountFromTarget` on a registered deposit is the negation of the
`getAllAmountsFromTargets` distance. -/
theorem amountFromTarget_of_findDep {s : Agg} {d : Dep}
    (hmem : findDep s d.addr = some d) (hW : 0 < s.totalWeight) :
    amountFromTarget s d.addr = .ok (-(distOf (totalBalance s) s.totalWeight d)) := by
  unfold amountFromTarget
  rw [hmem]
  dsimp only
  rw [if_neg (by omega)]
  unfold distOf
  congr 1
  ring

/-! ### C2: the deposit() surplus computation underflows -/

/-- C2: whenever the aggregator's idle balance strictly exceeds the optimal
aggregator balance `bufferWeight * totalBalance / totalWeight`, `deposit()`
does not distribute the surplus: line 88 computes
`optimalAggregatorBalance - actualAggregatorBalance`, whose unsigned
subtraction underflows in this branch, so the call always reverts. -/
theorem deposit_reverts_on_surplus (s : Agg) (hW : s.totalWeight ≠ 0)
    (h : s.bufferWeight * totalBalance s / s.totalWeight < s.aggBal) :
    deposit s = Except.error Err.underflow := by
  simp only [totalBalance, underlyingSum] at h
  unfold deposit
  dsimp only
  rw [show udiv (s.bufferWeight * ((s.deposits.map Dep.bal).sum + s.aggBal)) s.totalWeight =
      Except.ok (s.bufferWeight * ((s.deposits.map Dep.bal).sum + s.aggBal) / s.totalWeight) from by
    unfold udiv; rw [if_neg hW]]
  dsimp only
  rw [if_neg (by omega)]
  rw [show usub (s.bufferWeight * ((s.deposits.map Dep.bal).sum + s.aggBal) / s.totalWeight)
        s.aggBal = Except.error Err.underflow from by
    unfold usub; rw [if_neg (by omega)]]


theorem deposit_reverts_on_surplus_witness :
    c2s.totalWeight ≠ 0 ∧
    c2s.bufferWeight * totalBalance c2s / c2s.totalWeight < c2s.aggBal ∧
    deposit c2s = Except.error Err.underflow :=
  ⟨by decide, by decide, deposit_reverts_on_surplus c2s (by decide) (by decide)⟩

/-! ### C3: the idle fast path of withdraw -/



/-- C3 counterexample: at `amount = aggregatorBalance` (here both 10) the
source's strict comparison `aggregatorBalance > amount` fails, the slow path
runs, and a sub-deposit is drained: there is no execution serving the
withdrawal purely from idle funds with all sub-deposit balances unchanged. -/
theorem withdraw_at_equality_touches_subdeposit :
    10 ≤ c3s.aggBal ∧
    ¬ ∃ s' ops, withdraw c3s 10 = Except.ok (s', ops) ∧
        (∀ op ∈ ops, ∀ a n, op ≠ Op.subWithdraw a n) ∧
        s'.deposits.map Dep.bal = c3s.deposits.map Dep.bal := by
  refine ⟨by decide, ?_⟩
  rintro ⟨s', ops, h, hops, hbal⟩
  have hw : withdraw c3s 10 = Except.ok (c3s1, [Op.subWithdraw 1 5, Op.payout 10]) := by rfl
  rw [hw] at h
  simp only [Except.ok.injEq, Prod.mk.injEq] at h
  obtain ⟨hs, ho⟩ := h
  subst hs
  subst ho
  exact hops (Op.subWithdraw 1 5) (by simp) 1 5 rfl

/-- C3 (amended): whenever `amount` is strictly below the aggregator's idle
balance, `withdraw` is served entirely from idle funds: the only token
movement is the final payout and no sub-deposit is read or written. -/
theorem withdraw_fastPath (s : Agg) (amount : Nat) (h : amount < s.aggBal) :
    withdraw s amount =
      Except.ok ({ s with aggBal := s.aggBal - amount }, [Op.payout amount]) := by
  unfold withdraw
  rw [if_pos h]

theorem withdraw_fastPath_witness :
    3 < c3s.aggBal ∧
    withdraw c3s 3 = Except.ok ({ c3s with aggBal := 7 }, [Op.payout 3]) :=
  ⟨by decide, withdraw_fastPath c3s 3 (by decide)⟩

/-! ### C8: the InsufficientTotalBalance error of withdraw -/

/-- C8: `withdraw` fails with `"Not enough balance to withdraw"` exactly when
the requested amount exceeds the idle balance plus the sum of all sub-deposit
balances. -/
theorem withdraw_notEnoughBalance_iff (s : Agg) (amount : Nat) :
    withdraw s amount = Except.error Err.notEnoughBalance ↔ totalBalance s < amount := by
  have htb : totalBalance s = (s.deposits.map Dep.bal).sum + s.aggBal := rfl
  unfold withdraw
  by_cases hfast : amount < s.aggBal
  · rw [if_pos hfast]
    constructor
    · intro h; simp at h
    · intro h; exfalso; omega
  · rw [if_neg hfast]
    by_cases hins : (s.deposits.map Dep.bal).sum + s.aggBal < amount
    · rw [if_pos hins]
      simp [htb, hins]
    · rw [if_neg hins]
      constructor
      · intro h
        exfalso
        dsimp only at h
        split at h
        · simp at h
        · split at h
          · rename_i e heq
            injection h with h
            exact absurd (h ▸ usub_error_eq heq) (by simp)
          · simp at h
      · intro h; exfalso; omega

/-! ### C6: rebalanceSingle and NoRebalanceNeeded -/

/-- C6: for a registered deposit (with a well-defined target, i.e. a nonzero
`totalWeight`), `rebalanceSingle` fails with `"No rebalance needed."` exactly
when the deposit's distance `idealBalance - actualBalance` is zero. -/
theorem rebalanceSingle_noRebalanceNeeded_iff (s : Agg) (d : Dep)
    (hmem : findDep s d.addr = some d) (hW : 0 < s.totalWeight) :
    rebalanceSingle s d.addr = Except.error Err.noRebalanceNeeded ↔
      distOf (totalBalance s) s.totalWeight d = 0 := by
  unfold rebalanceSingle
  rw [hmem]
  dsimp only
  rw [amountFromTarget_of_findDep hmem hW]
  dsimp only
  by_cases h0 : distOf (totalBalance s) s.totalWeight d = 0
  · rw [if_pos (by omega)]
    simp [h0]
  · rw [if_neg (by omega)]
    constructor
    · intro h
      exfalso
      split at h
      · simp at h
      · split at h <;> simp at h
    · intro h
      exact absurd h h0


theorem rebalanceSingle_noRebalanceNeeded_iff_witness :
    findDep c6s 1 = some ⟨1, 1, 5⟩ ∧ 0 < c6s.totalWeight ∧
    (rebalanceSingle c6s 1 = Except.error Err.noRebalanceNeeded ↔
      distOf (totalBalance c6s) c6s.totalWeight ⟨1, 1, 5⟩ = 0) :=
  ⟨by decide, by decide, rebalanceSingle_noRebalanceNeeded_iff c6s ⟨1, 1, 5⟩ (by decide) (by decide)⟩

/-! ### C7: rebalanceSingle on a nonzero distance -/

/-- C7: for a registered deposit with nonzero distance
`dist = idealBalance - actualBalance` (spec sign convention): if `dist < 0`
(over-funded) the excess `-dist` is withdrawn from the deposit into the
aggregator; if `dist > 0` (under-funded) the call fails with
`"Cannot rebalance this deposit, please rebalance another one first."`
exactly when the aggregator's idle balance is below `dist`, and otherwise
transfers `dist` tokens from the aggregator into the deposit. -/
theorem rebalanceSingle_nonzero_cases (s : Agg) (d : Dep)
    (hmem : findDep s d.addr = some d) (hW : 0 < s.totalWeight) :
    (distOf (totalBalance s) s.totalWeight d < 0 →
      rebalanceSingle s d.addr = Except.ok
        ({ s with
            deposits := s.deposits.map (fun e =>
              if e.addr = d.addr then
                { e with bal := e.bal - (-(distOf (totalBalance s) s.totalWeight d)).toNat }
              else e),
            aggBal := s.aggBal + (-(distOf (totalBalance s) s.totalWeight d)).toNat },
         [Op.subWithdraw d.addr (-(distOf (totalBalance s) s.totalWeight d)).toNat])) ∧
    (0 < distOf (totalBalance s) s.totalWeight d →
      ((s.aggBal : Int) < distOf (totalBalance s) s.totalWeight d →
        rebalanceSingle s d.addr = Except.error Err.cannotRebalance) ∧
      (distOf (totalBalance s) s.totalWeight d ≤ (s.aggBal : Int) →
        rebalanceSingle s d.addr = Except.ok
          ({ s with
              deposits := s.deposits.map (fun e =>
                if e.addr = d.addr then
                  { e with bal := e.bal + (distOf (totalBalance s) s.totalWeight d).toNat }
                else e),
              aggBal := s.aggBal - (distOf (totalBalance s) s.totalWeight d).toNat },
           [Op.subTransfer d.addr (distOf (totalBalance s) s.totalWeight d).toNat]))) := by
  unfold rebalanceSingle
  rw [hmem]
  dsimp only
  rw [amountFromTarget_of_findDep hmem hW]
  dsimp only
  set dd := distOf (totalBalance s) s.totalWeight d with hdd
  refine ⟨fun hneg => ?_, fun hpos => ⟨fun hlt => ?_, fun hge => ?_⟩⟩
  · rw [if_neg (by omega), if_neg (by push_neg; intro hc; omega), if_pos (by omega)]
  · rw [if_neg (by omega), if_pos (by constructor <;> omega)]
  · rw [if_neg (by omega), if_neg (by push_neg; intro hc; omega), if_neg (by omega)]
    simp only [neg_neg]


theorem rebalanceSingle_nonzero_cases_witness :
    findDep c7s 1 = some ⟨1, 1, 9⟩ ∧ 0 < c7s.totalWeight ∧
    distOf (totalBalance c7s) c7s.totalWeight ⟨1, 1, 9⟩ < 0 ∧
    rebalanceSingle c7s 1 = Except.ok
      ({ deposits := [⟨1, 1, 5⟩], bufferWeight := 1, totalWeight := 2, aggBal := 5 },
       [Op.subWithdraw 1 4]) := by
  refine ⟨by decide, by decide, by decide, ?_⟩
  have h := (rebalanceSingle_nonzero_cases c7s ⟨1, 1, 9⟩ (by decide) (by decide)).1 (by decide)
  rw [h]
  rfl

/-! ### C10: the two distance views are negations of each other -/

/-- C10: for the deposit at registry index `i`, `amountFromTarget` of its
address returns `actualBalance - idealBalance`, the exact negation of entry
`i` of `getAllAmountsFromTargets`, which is `idealBalance - actualBalance`
(both over the same fixed balances and weights). -/
theorem amountFromTarget_negates_allAmounts (s : Agg) (i : Nat) (d : Dep)
    (hd : s.deposits[i]? = some d) (hnd : (s.deposits.map Dep.addr).Nodup)
    (hW : 0 < s.totalWeight) :
    ∃ r, getAllAmountsFromTargets s = .ok r ∧
      r[i]? = some (distOf (totalBalance s) s.totalWeight d) ∧
      amountFromTarget s d.addr = .ok (-(distOf (totalBalance s) s.totalWeight d)) := by
  have hmem : findDep s d.addr = some d :=
    find?_addr_of_nodup hnd (List.mem_iff_getElem?.mpr ⟨i, hd⟩)
  refine ⟨s.deposits.map (distOf (totalBalance s) s.totalWeight), ?_, ?_, ?_⟩
  · unfold getAllAmountsFromTargets
    rw [if_neg (by omega)]
  · rw [List.getElem?_map, hd]
    rfl
  · exact amountFromTarget_of_findDep hmem hW

theorem amountFromTarget_negates_allAmounts_witness :
    c10s.deposits[0]? = some ⟨1, 1, 5⟩ ∧ (c10s.deposits.map Dep.addr).Nodup ∧
    0 < c10s.totalWeight ∧
    ∃ r, getAllAmountsFromTargets c10s = .ok r ∧
      r[0]? = some (distOf (totalBalance c10s) c10s.totalWeight ⟨1, 1, 5⟩) ∧
      amountFromTarget c10s 1 = .ok (-(distOf (totalBalance c10s) c10s.totalWeight ⟨1, 1, 5⟩)) :=
  ⟨rfl, by decide, by decide,
    amountFromTarget_negates_allAmounts c10s 0 ⟨1, 1, 5⟩ rfl (by decide) (by decide)⟩

/-! ### Registry bookkeeping lemmas (for the mutators) -/

/-- Searching with `find?` by address commutes with an address-preserving conditional
per-entry update. -/
theorem find?_map_update (l : List Dep) (a : Nat) (g : Dep → Dep)
    (hg : ∀ e, (g e).addr = e.addr) :
    (l.map (fun e => if e.addr = a then g e else e)).find? (fun e => e.addr = a)
      = (l.find? (fun e => e.addr = a)).map g := by
  induction l with
  | nil => rfl
  | cons x t ih =>
      by_cases hx : x.addr = a
      · rw [List.map_cons, if_pos hx]
        rw [List.find?_cons_of_pos _ (by simp [hg, hx]), List.find?_cons_of_pos _ (by simp [hx])]
        rfl
      · rw [List.map_cons, if_neg hx]
        rw [List.find?_cons_of_neg _ (by simp [hx]), List.find?_cons_of_neg _ (by simp [hx])]
        exact ih

/-- A conditional per-entry update that fixes a projection `f` leaves the
`f`-image of the registry unchanged. -/
theorem map_proj_update (l : List Dep) (c : Dep → Prop) [DecidablePred c]
    (g : Dep → Dep) (f : Dep → Nat) (hfg : ∀ e, f (g e) = f e) :
    (l.map (fun e => if c e then g e else e)).map f = l.map f := by
  rw [List.map_map]
  apply List.map_congr_left
  intro e _
  by_cases hc : c e
  · simp [hc, hfg]
  · simp [hc]

theorem getLastD_irrel {l : List Dep} (h : l ≠ []) (d1 d2 : Dep) :
    l.getLastD d1 = l.getLastD d2 := by
  cases l with
  | nil => exact absurd rfl h
  | cons x t => rw [List.getLastD_cons, List.getLastD_cons]

theorem sum_map_dropLast (f : Dep → Nat) : ∀ (x : Dep) (t : List Dep) (dflt : Dep),
    (((x :: t).dropLast).map f).sum + f ((x :: t).getLastD dflt) = ((x :: t).map f).sum := by
  intro x t
  induction t generalizing x with
  | nil => intro dflt; simp
  | cons y u ih =>
      intro dflt
      rw [List.getLastD_cons, List.dropLast_cons_of_ne_nil (by simp)]
      simp only [List.map_cons, List.sum_cons]
      have h2 := ih y x
      simp only [List.map_cons, List.sum_cons] at h2
      omega

theorem findIdx?_isSome_of_find? {l : List Dep} {p : Dep → Bool} {d : Dep}
    (h : l.find? p = some d) : ∃ j, l.findIdx? p = some j := by
  induction l with
  | nil => simp at h
  | cons x t ih =>
      by_cases hx : p x = true
      · exact ⟨0, by simp [List.findIdx?_cons, hx]⟩
      · rw [List.find?_cons_of_neg _ hx] at h
        obtain ⟨j, hj⟩ := ih h
        exact ⟨j + 1, by simp [List.findIdx?_cons, hx, List.findIdx?_succ, hj]⟩

/-- Swap-remove of a found element removes exactly one copy of it from any
summed projection of the registry. -/
theorem sum_map_swapRemove {l : List Dep} {a : Nat} {d : Dep} (f : Dep → Nat)
    (hfind : l.find? (fun e => e.addr = a) = some d) :
    ((swapRemove l a).map f).sum + f d = (l.map f).sum := by
  induction l with
  | nil => simp at hfind
  | cons x t ih =>
      by_cases hx : x.addr = a
      · have hd : d = x := by
          rw [List.find?_cons_of_pos _ (by simp [hx])] at hfind
          exact (Option.some.inj hfind).symm
        unfold swapRemove
        rw [show (x :: t).findIdx? (fun e => e.addr = a) = some 0 from by
          simp [List.findIdx?_cons, hx]]
        dsimp only
        cases t with
        | nil => simp [hd]
        | cons y u =>
            rw [List.getLastD_cons, List.set_cons_zero,
              List.dropLast_cons_of_ne_nil (by simp)]
            simp only [List.map_cons, List.sum_cons]
            have h2 := sum_map_dropLast f y u x
            simp only [List.map_cons, List.sum_cons] at h2
            rw [hd]
            omega
      · rw [List.find?_cons_of_neg _ (by simp [hx])] at hfind
        have ht : t ≠ [] := by
          cases t
          · simp at hfind
          · simp
        obtain ⟨j, hj⟩ := findIdx?_isSome_of_find? hfind
        unfold swapRemove
        rw [show (x :: t).findIdx? (fun e => e.addr = a) = some (j + 1) from by
          simp [List.findIdx?_cons, hx, List.findIdx?_succ, hj]]
        dsimp only
        rw [List.set_cons_succ, List.getLastD_cons,
          getLastD_irrel ht x ⟨0, 0, 0⟩,
          List.dropLast_cons_of_ne_nil (by
            apply List.ne_nil_of_length_pos
            rw [List.length_set]
            exact List.length_pos.mpr ht)]
        have hsw : swapRemove t a = (t.set j (t.getLastD ⟨0, 0, 0⟩)).dropLast := by
          unfold swapRemove
          rw [hj]
        rw [← hsw]
        simp only [List.map_cons, List.sum_cons]
        have h3 := ih hfind
        omega

theorem indicator_sum_le_one {l : List Dep} {a : Nat}
    (hnd : (l.map Dep.addr).Nodup) :
    (l.map (fun e => if e.addr = a then 1 else 0)).sum ≤ 1 := by
  induction l with
  | nil => simp
  | cons x t ih =>
      rw [List.map_cons, List.nodup_cons] at hnd
      simp only [List.map_cons, List.sum_cons]
      by_cases hx : x.addr = a
      · rw [if_pos hx]
        have h0 : (t.map (fun e => if e.addr = a then 1 else 0)).sum = 0 := by
          apply List.sum_eq_zero_iff.mpr
          intro y hy
          rw [List.mem_map] at hy
          obtain ⟨e, he, rfl⟩ := hy
          rw [if_neg]
          intro hc
          exact hnd.1 (hx ▸ hc ▸ List.mem_map_of_mem Dep.addr he)
        omega
      · rw [if_neg hx]
        have := ih hnd.2
        omega

theorem not_mem_addr_of_indicator_zero {l : List Dep} {a : Nat}
    (h : (l.map (fun e => if e.addr = a then 1 else 0)).sum = 0) :
    a ∉ l.map Dep.addr := by
  intro hmem
  rw [List.mem_map] at hmem
  obtain ⟨e, he, hea⟩ := hmem
  have h1 : (1 : Nat) ∈ l.map (fun e => if e.addr = a then 1 else 0) := by
    rw [List.mem_map]
    exact ⟨e, he, by rw [if_pos hea]⟩
  have := List.sum_eq_zero_iff.mp h 1 h1
  omega

/-- After swap-removing the (unique) entry with address `a`, no entry with
address `a` remains. -/
theorem addr_not_mem_swapRemove {l : List Dep} {a : Nat} {d : Dep}
    (hfind : l.find? (fun e => e.addr = a) = some d)
    (hnd : (l.map Dep.addr).Nodup) :
    a ∉ (swapRemove l a).map Dep.addr := by
  have hda : d.addr = a := by simpa using List.find?_some hfind
  have hsum := sum_map_swapRemove (fun e => if e.addr = a then 1 else 0) hfind
  rw [show ((fun e => if e.addr = a then 1 else 0) d) = 1 from by simp [hda]] at hsum
  have hle := indicator_sum_le_one (l := l) (a := a) hnd
  exact not_mem_addr_of_indicator_zero (by omega)

/-- A conditional per-entry update of the unique entry with address `a`
changes a summed projection by exactly the update's effect on that entry. -/
theorem sum_map_update_of_nodup {l : List Dep} {a : Nat} {d : Dep} (g : Dep → Dep) (f : Dep → Nat)
    (hfind : l.find? (fun e => e.addr = a) = some d)
    (hnd : (l.map Dep.addr).Nodup) :
    ((l.map (fun e => if e.addr = a then g e else e)).map f).sum + f d
      = (l.map f).sum + f (g d) := by
  induction l with
  | nil => simp at hfind
  | cons x t ih =>
      rw [List.map_cons, List.nodup_cons] at hnd
      by_cases hx : x.addr = a
      · have hd : d = x := by
          rw [List.find?_cons_of_pos _ (by simp [hx])] at hfind
          exact (Option.some.inj hfind).symm
        subst hd
        simp only [List.map_cons, List.sum_cons, if_pos hx]
        have hid : t.map (fun e => if e.addr = a then g e else e) = t.map (fun e => e) := by
          apply List.map_congr_left
          intro e he
          rw [if_neg]
          intro hc
          exact hnd.1 (hx ▸ hc ▸ List.mem_map_of_mem Dep.addr he)
        rw [hid, List.map_id']
        omega
      · rw [List.find?_cons_of_neg _ (by simp [hx])] at hfind
        simp only [List.map_cons, List.sum_cons, if_neg hx]
        have := ih hfind hnd.2
        omega

theorem addPCVDeposit_wf {s : Agg} {d : Dep} {s' : Agg} (h : wfWeights s)
    (hadd : addPCVDeposit s d = .ok s') : wfWeights s' := by
  unfold addPCVDeposit at hadd
  split at hadd
  · simp at hadd
  · injection hadd with hadd
    subst hadd
    unfold wfWeights weightSum at h ⊢
    simp only [List.map_append, List.sum_append, List.map_cons, List.sum_cons,
      List.map_nil, List.sum_nil]
    omega

theorem mkAggregatorLoop_wf : ∀ (init : List Dep) {s0 s' : Agg}, wfWeights s0 →
    mkAggregatorLoop init s0 = Except.ok s' → wfWeights s' := by
  intro init
  induction init with
  | nil =>
      intro s0 s' h0 hl
      unfold mkAggregatorLoop at hl
      injection hl with hl
      subst hl
      exact h0
  | cons d rest ih =>
      intro s0 s' h0 hl
      unfold mkAggregatorLoop at hl
      split at hl
      · simp at hl
      · rename_i s1 hadd
        exact ih (addPCVDeposit_wf h0 hadd) hl

/-- A successful `_rebalanceSingle` changes neither the weight table nor
`totalWeight` nor `bufferWeight`; its only registry effect is a balance
update of the targeted entry. -/
theorem rebalanceSingle_ok_shape {s : Agg} {a : Nat} {s2 : Agg} {ops : List Op}
    (h : rebalanceSingle s a = .ok (s2, ops)) :
    s2.totalWeight = s.totalWeight ∧ s2.bufferWeight = s.bufferWeight ∧
    ∃ F : Dep → Nat, s2.deposits = s.deposits.map (fun e =>
      if e.addr = a then { e with bal := F e } else e) := by
  unfold rebalanceSingle at h
  split at h
  · simp at h
  · split at h
    · simp at h
    · split at h
      · simp at h
      · split at h
        · simp at h
        · split at h
          · simp only [Except.ok.injEq, Prod.mk.injEq] at h
            obtain ⟨h1, h2⟩ := h
            subst h1
            exact ⟨rfl, rfl, _, rfl⟩
          · simp only [Except.ok.injEq, Prod.mk.injEq] at h
            obtain ⟨h1, h2⟩ := h
            subst h1
            exact ⟨rfl, rfl, _, rfl⟩

/-! ### C1: the total-weight invariant is preserved by every mutator -/

/-- C1: starting from a well-formed registry (no duplicate addresses, the
invariant holding), every state-mutating registry operation that succeeds —
construction, `addPCVDeposit`, `removePCVDeposit`, `setPCVDepositWeight`,
`setBufferWeight` — re-establishes
`totalWeight = bufferWeight + Σ weight(i)` exactly. -/
theorem mutators_preserve_weight_invariant (s : Agg)
    (hnd : (s.deposits.map Dep.addr).Nodup) (h : wfWeights s) :
    (∀ init bw ab s0, mkAggregator init bw ab = Except.ok s0 → wfWeights s0) ∧
    (∀ d s', addPCVDeposit s d = Except.ok s' → wfWeights s') ∧
    (∀ a s' ops, removePCVDeposit s a = Except.ok (s', ops) → wfWeights s') ∧
    (∀ a w s', setPCVDepositWeight s a w = Except.ok s' → wfWeights s') ∧
    (∀ w s', setBufferWeight s w = Except.ok s' → wfWeights s') := by
  refine ⟨?_, ?_, ?_, ?_, ?_⟩
  · intro init bw ab s0 hmk
    unfold mkAggregator at hmk
    exact mkAggregatorLoop_wf init (by unfold wfWeights weightSum; simp) hmk
  · intro d s' hadd
    exact addPCVDeposit_wf h hadd
  · intro a s' ops hrem
    unfold removePCVDeposit at hrem
    split at hrem
    · simp at hrem
    · rename_i d hfind
      unfold findDep at hfind
      split at hrem
      · -- short-circuit: weight and balance already zero
        rename_i hzero
        simp only [Except.ok.injEq, Prod.mk.injEq] at hrem
        obtain ⟨h1, h2⟩ := hrem
        subst h1
        have hswap := sum_map_swapRemove Dep.weight hfind
        unfold wfWeights weightSum at h ⊢
        dsimp only at hswap ⊢
        omega
      · split at hrem
        · simp at hrem
        · rename_i hzero hwle
          dsimp only at hrem
          split at hrem
          · simp at hrem
          · rename_i s2 ops2 hrb
            simp only [Except.ok.injEq, Prod.mk.injEq] at hrem
            obtain ⟨h1, h2⟩ := hrem
            subst h1
            obtain ⟨hW2, hB2, F, hdeps2⟩ := rebalanceSingle_ok_shape hrb
            dsimp only at hW2 hB2 hdeps2
            -- the zeroed-weight entry as found in the intermediate states
            have hfind1 : (s.deposits.map (fun e =>
                if e.addr = a then { e with weight := 0 } else e)).find?
                  (fun e => e.addr = a)
                = some { d with weight := 0 } := by
              rw [find?_map_update s.deposits a (fun e => { e with weight := 0 })
                (fun e => rfl), hfind]
              rfl
            have hfind2 : s2.deposits.find? (fun e => e.addr = a)
                = some { d with weight := 0, bal := F { d with weight := 0 } } := by
              rw [hdeps2,
                find?_map_update _ a (fun e => { e with bal := F e }) (fun e => rfl),
                hfind1]
              rfl
            have hswap := sum_map_swapRemove Dep.weight hfind2
            have hsum1 := sum_map_update_of_nodup
              (fun e => { e with weight := 0 }) Dep.weight hfind hnd
            have hsum2 : s2.deposits.map Dep.weight
                = (s.deposits.map (fun e =>
                    if e.addr = a then { e with weight := 0 } else e)).map Dep.weight := by
              rw [hdeps2]
              exact map_proj_update
                (s.deposits.map (fun e => if e.addr = a then { e with weight := 0 } else e))
                (fun e => e.addr = a) (fun e => { e with bal := F e }) Dep.weight
                (fun e => rfl)
            unfold wfWeights weightSum at h ⊢
            dsimp only at hswap hsum1 hsum2 ⊢
            rw [hsum2] at hswap
            omega
  · intro a w s' hset
    unfold setPCVDepositWeight at hset
    split at hset
    · simp at hset
    · rename_i d hfind
      unfold findDep at hfind
      dsimp only at hset
      split at hset
      · simp at hset
      · rename_i hge
        injection hset with hset
        subst hset
        have hsum := sum_map_update_of_nodup
          (fun e => { e with weight := w }) Dep.weight hfind hnd
        unfold wfWeights weightSum at h ⊢
        dsimp only at hsum ⊢
        omega
  · intro w s' hset
    unfold setBufferWeight at hset
    dsimp only at hset
    split at hset
    · simp at hset
    · rename_i hge
      injection hset with hset
      subst hset
      unfold wfWeights weightSum at h ⊢
      dsimp only
      omega

theorem mutators_preserve_weight_invariant_witness :
    (c1s.deposits.map Dep.addr).Nodup ∧ wfWeights c1s ∧
    ((∀ init bw ab s0, mkAggregator init bw ab = Except.ok s0 → wfWeights s0) ∧
     (∀ d s', addPCVDeposit c1s d = Except.ok s' → wfWeights s') ∧
     (∀ a s' ops, removePCVDeposit c1s a = Except.ok (s', ops) → wfWeights s') ∧
     (∀ a w s', setPCVDepositWeight c1s a w = Except.ok s' → wfWeights s') ∧
     (∀ w s', setBufferWeight c1s w = Except.ok s' → wfWeights s')) :=
  ⟨by decide, by decide, mutators_preserve_weight_invariant c1s (by decide) (by decide)⟩

/-! ### C9: removing a deposit with nonzero balance -/

/-- C9 counterexample: for the single registered deposit (weight 1,
balance 5) of an aggregator with `bufferWeight = 0`, `removePCVDeposit`
first zeroes the deposit's weight, making `totalWeight` zero, and the forced
single rebalance then divides by zero, so the call reverts: the deposit's
balance is never pulled into the aggregator and the entry is never removed. -/
theorem removePCVDeposit_lastWeight_reverts :
    findDep c9s 1 = some ⟨1, 1, 5⟩ ∧ (⟨1, 1, 5⟩ : Dep).bal ≠ 0 ∧
    ¬ ∃ s' ops, removePCVDeposit c9s 1 = Except.ok (s', ops) := by
  refine ⟨by decide, by decide, ?_⟩
  rintro ⟨s', ops, h⟩
  rw [show removePCVDeposit c9s 1 = Except.error Err.divByZero from rfl] at h
  simp at h

/-- C9 (amended): for a registered deposit with nonzero balance, provided the
total weight remaining after zeroing this deposit's weight is nonzero,
`removePCVDeposit` withdraws the deposit's entire balance into the aggregator
(the only token movement of the call) and then removes the entry, so the
registry — which `getAllAmountsFromTargets` iterates — no longer references
it. -/
theorem removePCVDeposit_drains (s : Agg) (d : Dep)
    (hmem : findDep s d.addr = some d) (hnd : (s.deposits.map Dep.addr).Nodup)
    (hbal : d.bal ≠ 0) (hW : d.weight < s.totalWeight) :
    ∃ s' ops, removePCVDeposit s d.addr = .ok (s', ops) ∧
      ops = [Op.subWithdraw d.addr d.bal] ∧
      s'.aggBal = s.aggBal + d.bal ∧
      d.addr ∉ s'.deposits.map Dep.addr := by
  have hfind : s.deposits.find? (fun e => e.addr = d.addr) = some d := hmem
  have hfind1 : (s.deposits.map (fun e =>
      if e.addr = d.addr then { e with weight := 0 } else e)).find?
        (fun e => e.addr = d.addr)
      = some { d with weight := 0 } := by
    rw [find?_map_update s.deposits d.addr (fun e => { e with weight := 0 })
      (fun e => rfl), hfind]
    rfl
  have hfd1 : findDep
      { deposits := s.deposits.map (fun e =>
          if e.addr = d.addr then { e with weight := 0 } else e),
        bufferWeight := s.bufferWeight,
        totalWeight := s.totalWeight - d.weight, aggBal := s.aggBal } d.addr
      = some { d with weight := 0 } := by
    unfold findDep
    exact hfind1
  have hAF : amountFromTarget
      { deposits := s.deposits.map (fun e =>
          if e.addr = d.addr then { e with weight := 0 } else e),
        bufferWeight := s.bufferWeight,
        totalWeight := s.totalWeight - d.weight, aggBal := s.aggBal } d.addr
      = .ok (d.bal : Int) := by
    unfold amountFromTarget
    rw [hfd1]
    dsimp only
    rw [if_neg (by omega)]
    simp [idealBal]
  have hrs : rebalanceSingle
      { deposits := s.deposits.map (fun e =>
          if e.addr = d.addr then { e with weight := 0 } else e),
        bufferWeight := s.bufferWeight,
        totalWeight := s.totalWeight - d.weight, aggBal := s.aggBal } d.addr
      = .ok
      ({ deposits := (s.deposits.map (fun e =>
            if e.addr = d.addr then { e with weight := 0 } else e)).map (fun e =>
            if e.addr = d.addr then { e with bal := e.bal - d.bal } else e),
         bufferWeight := s.bufferWeight,
         totalWeight := s.totalWeight - d.weight, aggBal := s.aggBal + d.bal },
       [Op.subWithdraw d.addr d.bal]) := by
    unfold rebalanceSingle
    rw [hfd1]
    dsimp only
    rw [hAF]
    dsimp only
    rw [if_neg (by omega), if_neg (by push_neg; intro hc; omega), if_pos (by omega)]
    simp [Int.toNat_natCast]
  have hrm : removePCVDeposit s d.addr = .ok
      ({ deposits := swapRemove ((s.deposits.map (fun e =>
            if e.addr = d.addr then { e with weight := 0 } else e)).map (fun e =>
            if e.addr = d.addr then { e with bal := e.bal - d.bal } else e)) d.addr,
         bufferWeight := s.bufferWeight,
         totalWeight := s.totalWeight - d.weight, aggBal := s.aggBal + d.bal },
       [Op.subWithdraw d.addr d.bal]) := by
    unfold removePCVDeposit
    rw [hmem]
    dsimp only
    rw [if_neg (fun hc => hbal hc.2), if_neg (by omega)]
    rw [hrs]
  refine ⟨_, _, hrm, rfl, rfl, ?_⟩
  have hfind2 : ((s.deposits.map (fun e =>
      if e.addr = d.addr then { e with weight := 0 } else e)).map (fun e =>
      if e.addr = d.addr then { e with bal := e.bal - d.bal } else e)).find?
        (fun e => e.addr = d.addr)
      = some { d with weight := 0, bal := d.bal - d.bal } := by
    rw [find?_map_update _ d.addr (fun e => { e with bal := e.bal - d.bal })
      (fun e => rfl), hfind1]
    rfl
  have hnd2 : (((s.deposits.map (fun e =>
      if e.addr = d.addr then { e with weight := 0 } else e)).map (fun e =>
      if e.addr = d.addr then { e with bal := e.bal - d.bal } else e)).map Dep.addr).Nodup := by
    rw [map_proj_update _ (fun e => e.addr = d.addr)
        (fun e => { e with bal := e.bal - d.bal }) Dep.addr (fun e => rfl),
      map_proj_update s.deposits (fun e => e.addr = d.addr)
        (fun e => { e with weight := 0 }) Dep.addr (fun e => rfl)]
    exact hnd
  exact addr_not_mem_swapRemove hfind2 hnd2

theorem removePCVDeposit_drains_witness :
    findDep c9sB 1 = some ⟨1, 1, 5⟩ ∧ (c9sB.deposits.map Dep.addr).Nodup ∧
    (⟨1, 1, 5⟩ : Dep).bal ≠ 0 ∧ (⟨1, 1, 5⟩ : Dep).weight < c9sB.totalWeight ∧
    ∃ s' ops, removePCVDeposit c9sB 1 = .ok (s', ops) ∧
      ops = [Op.subWithdraw 1 5] ∧
      s'.aggBal = c9sB.aggBal + 5 ∧
      (1 : Nat) ∉ s'.deposits.map Dep.addr :=
  ⟨by decide, by decide, by decide, by decide,
    removePCVDeposit_drains c9sB ⟨1, 1, 5⟩ (by decide) (by decide) (by decide) (by decide)⟩

/-! ### Arithmetic lemmas for the full rebalance -/

theorem div_add_div_le (a b c : Nat) : a / c + b / c ≤ (a + b) / c := by
  rcases Nat.eq_zero_or_pos c with hc | hc
  · subst hc; simp
  · rw [Nat.le_div_iff_mul_le hc]
    have h1 := Nat.div_mul_le_self a c
    have h2 := Nat.div_mul_le_self b c
    have h3 : (a / c + b / c) * c = a / c * c + b / c * c := by ring
    omega

theorem sum_map_div_le (tb tw : Nat) (l : List Dep) :
    (l.map (fun d => idealBal tb tw d.weight)).sum ≤ tb * (l.map Dep.weight).sum / tw := by
  induction l with
  | nil => simp
  | cons x t ih =>
      simp only [List.map_cons, List.sum_cons]
      calc idealBal tb tw x.weight + (t.map (fun d => idealBal tb tw d.weight)).sum
          ≤ tb * x.weight / tw + tb * (t.map Dep.weight).sum / tw := by
            unfold idealBal at ih ⊢
            omega
        _ ≤ (tb * x.weight + tb * (t.map Dep.weight).sum) / tw := div_add_div_le _ _ _
        _ = tb * (x.weight + (t.map Dep.weight).sum) / tw := by rw [Nat.mul_add]

/-- Truncating division makes the ideal balances sum to at most the total
balance, as long as the deposit weights sum to at most `totalWeight`. -/
theorem sum_ideal_le_totalBalance (s : Agg) (hw : weightSum s ≤ s.totalWeight)
    (hW : 0 < s.totalWeight) :
    (s.deposits.map (fun d => idealBal (totalBalance s) s.totalWeight d.weight)).sum
      ≤ totalBalance s := by
  have h1 := sum_map_div_le (totalBalance s) s.totalWeight s.deposits
  have h2 : totalBalance s * (s.deposits.map Dep.weight).sum / s.totalWeight
      ≤ totalBalance s * s.totalWeight / s.totalWeight :=
    Nat.div_le_div_right (Nat.mul_le_mul_left _ hw)
  rw [Nat.mul_div_cancel _ hW] at h2
  omega

theorem sum_dist_split (l : List Dep) (tb tw : Nat) :
    (l.map (distOf tb tw)).sum
      = ((l.map (fun d => idealBal tb tw d.weight)).sum : Int)
        - ((l.map Dep.bal).sum : Int) := by
  induction l with
  | nil => simp
  | cons x t ih =>
      simp only [List.map_cons, List.sum_cons, ih, distOf]
      push_cast
      ring

theorem posPart_negPart (z : Int) : (posPart z : Int) - (negPart z : Int) = z := by
  unfold posPart negPart
  by_cases h1 : 0 < z
  · rw [if_pos h1, if_neg (by omega)]
    omega
  · rw [if_neg h1]
    by_cases h2 : z < 0
    · rw [if_pos h2]
      omega
    · rw [if_neg h2]
      omega

theorem sum_posPart_negPart (l : List Dep) (g : Dep → Int) :
    ((l.map (fun d => posPart (g d))).sum : Int) - ((l.map (fun d => negPart (g d))).sum : Int)
      = (l.map g).sum := by
  induction l with
  | nil => simp
  | cons x t ih =>
      simp only [List.map_cons, List.sum_cons]
      push_cast
      push_cast at ih
      have := posPart_negPart (g x)
      omega

/-- The deposit phase of `_rebalance`, run with enough aggregator liquidity
to cover all positive distances, succeeds and sends exactly the positive
part of each snapshot distance. -/
theorem rebalanceDepositPhase_spec : ∀ (ps : List (Dep × Int)) (b : Nat),
    (ps.map (fun p => posPart p.2)).sum ≤ b →
    rebalanceDepositPhase b ps = .ok
      (b - (ps.map (fun p => posPart p.2)).sum,
       ps.map (fun p => if 0 < p.2 then { p.1 with bal := p.1.bal + p.2.toNat } else p.1),
       ps.filterMap (fun p =>
         if 0 < p.2 then some (Op.subTransfer p.1.addr p.2.toNat) else none)) := by
  intro ps
  induction ps with
  | nil =>
      intro b _
      simp [rebalanceDepositPhase]
  | cons p t ih =>
      intro b hb
      obtain ⟨d, z⟩ := p
      simp only [List.map_cons, List.sum_cons] at hb ⊢
      unfold rebalanceDepositPhase
      by_cases hz : 0 < z
      · have hzp : posPart z = z.toNat := by
          unfold posPart
          rw [if_pos hz]
        rw [if_pos hz, if_neg (by omega)]
        rw [ih (b - z.toNat) (by omega)]
        simp only [List.filterMap_cons, if_pos hz, hzp, ← Nat.sub_sub]
      · have hzp : posPart z = 0 := by
          unfold posPart
          rw [if_neg hz]
        rw [if_neg hz]
        rw [ih b (by omega)]
        simp only [List.filterMap_cons, if_neg hz, hzp, Nat.zero_add]

/-- Characterisation of a full `_rebalance` under the weight invariant:
it succeeds, emits all withdrawal operations before all deposit operations,
sets every sub-deposit to its ideal balance, and leaves the rest of the
total balance idle in the aggregator. -/
theorem rebalance_spec (s : Agg) (hw : weightSum s ≤ s.totalWeight) (hW : 0 < s.totalWeight) :
    ∃ b', rebalance s = .ok
        ({ s with
            deposits := s.deposits.map (fun d =>
              { d with bal := idealBal (totalBalance s) s.totalWeight d.weight }),
            aggBal := b' },
         s.deposits.filterMap (fun d =>
             if distOf (totalBalance s) s.totalWeight d < 0 then
               some (Op.subWithdraw d.addr (-(distOf (totalBalance s) s.totalWeight d)).toNat)
             else none)
         ++ s.deposits.filterMap (fun d =>
             if 0 < distOf (totalBalance s) s.totalWeight d then
               some (Op.subTransfer d.addr (distOf (totalBalance s) s.totalWeight d).toNat)
             else none)) ∧
      b' + (s.deposits.map (fun d =>
          idealBal (totalBalance s) s.totalWeight d.weight)).sum = totalBalance s := by
  have hga : getAllAmountsFromTargets s
      = .ok (s.deposits.map (distOf (totalBalance s) s.totalWeight)) := by
    unfold getAllAmountsFromTargets
    rw [if_neg (by omega)]
  have hpos_le : (s.deposits.map (fun d =>
        posPart (distOf (totalBalance s) s.totalWeight d))).sum
      ≤ s.aggBal + (s.deposits.map (fun d =>
        negPart (distOf (totalBalance s) s.totalWeight d))).sum := by
    have h1 := sum_posPart_negPart s.deposits (distOf (totalBalance s) s.totalWeight)
    have h2 := sum_dist_split s.deposits (totalBalance s) s.totalWeight
    have h3 := sum_ideal_le_totalBalance s hw hW
    have h4 : totalBalance s = (s.deposits.map Dep.bal).sum + s.aggBal := rfl
    omega
  refine ⟨s.aggBal + (s.deposits.map (fun d =>
      negPart (distOf (totalBalance s) s.totalWeight d))).sum
      - (s.deposits.map (fun d =>
      posPart (distOf (totalBalance s) s.totalWeight d))).sum, ?_, ?_⟩
  · unfold rebalance
    rw [hga]
    dsimp only
    rw [List.zip_map']
    have hle : ((s.deposits.map (fun d =>
          ((if distOf (totalBalance s) s.totalWeight d < 0 then
              { d with bal := d.bal - (-(distOf (totalBalance s) s.totalWeight d)).toNat }
            else d),
           distOf (totalBalance s) s.totalWeight d))).map (fun p => posPart p.2)).sum
        ≤ s.aggBal + (s.deposits.map (fun d =>
            if distOf (totalBalance s) s.totalWeight d < 0 then
              (-(distOf (totalBalance s) s.totalWeight d)).toNat
            else 0)).sum := by
      rw [List.map_map]
      exact hpos_le
    rw [rebalanceDepositPhase_spec _ _ hle]
    dsimp only
    congr 1
    congr 1
    · congr 1
      · rw [List.map_map]
        apply List.map_congr_left
        intro d _
        dsimp only [Function.comp]
        have hd : distOf (totalBalance s) s.totalWeight d
            = (idealBal (totalBalance s) s.totalWeight d.weight : Int) - (d.bal : Int) := rfl
        by_cases h1 : 0 < distOf (totalBalance s) s.totalWeight d
        · rw [if_neg (by omega : ¬ distOf (totalBalance s) s.totalWeight d < 0), if_pos h1]
          rw [show d.bal + (distOf (totalBalance s) s.totalWeight d).toNat
              = idealBal (totalBalance s) s.totalWeight d.weight from by omega]
        · by_cases h2 : distOf (totalBalance s) s.totalWeight d < 0
          · rw [if_pos h2, if_neg h1]
            rw [show d.bal - (-(distOf (totalBalance s) s.totalWeight d)).toNat
                = idealBal (totalBalance s) s.totalWeight d.weight from by omega]
          · rw [if_neg h2, if_neg h1]
            rw [show idealBal (totalBalance s) s.totalWeight d.weight = d.bal from by omega]
      · rw [List.map_map]
        rfl
    · congr 1
      rw [List.filterMap_map]
      apply List.filterMap_congr
      intro d _
      dsimp only [Function.comp]
      by_cases h1 : 0 < distOf (totalBalance s) s.totalWeight d
      · rw [if_neg (by omega : ¬ distOf (totalBalance s) s.totalWeight d < 0), if_pos h1]
      · rw [if_neg h1, if_neg h1]
  · have h1 := sum_posPart_negPart s.deposits (distOf (totalBalance s) s.totalWeight)
    have h2 := sum_dist_split s.deposits (totalBalance s) s.totalWeight
    have h3 := sum_ideal_le_totalBalance s hw hW
    have h4 : totalBalance s = (s.deposits.map Dep.bal).sum + s.aggBal := rfl
    omega

/-! ### C4: the two-phase ordering of the full rebalance -/

/-- C4: under the registry invariant, a full `rebalance()` emits all
sub-deposit withdrawals before all sub-deposit transfers and the call
succeeds.  In the embedding, `rebalanceDepositPhase` reverts with an
underflow whenever a second-phase transfer exceeds the aggregator's balance
at the moment it is made (each sub-deposit's withdraw is assumed to deliver
the requested amount), so the returned `.ok` means every second-phase
transfer was covered by the aggregator's balance then on hand. -/
theorem rebalance_twoPhase (s : Agg) (h1 : wfWeights s) (hW : 0 < s.totalWeight) :
    ∃ s' wOps dOps, rebalance s = .ok (s', wOps ++ dOps) ∧
      (∀ op ∈ wOps, ∃ a n, op = Op.subWithdraw a n) ∧
      (∀ op ∈ dOps, ∃ a n, op = Op.subTransfer a n) := by
  have hw : weightSum s ≤ s.totalWeight := by
    unfold wfWeights at h1
    omega
  obtain ⟨b', hreb, _⟩ := rebalance_spec s hw hW
  refine ⟨_, _, _, hreb, ?_, ?_⟩
  · intro op hop
    rw [List.mem_filterMap] at hop
    obtain ⟨d, _, hd⟩ := hop
    split at hd
    · exact ⟨d.addr, _, (Option.some.inj hd).symm⟩
    · simp at hd
  · intro op hop
    rw [List.mem_filterMap] at hop
    obtain ⟨d, _, hd⟩ := hop
    split at hd
    · exact ⟨d.addr, _, (Option.some.inj hd).symm⟩
    · simp at hd

theorem rebalance_twoPhase_witness :
    wfWeights c4s ∧ 0 < c4s.totalWeight ∧
    ∃ s' wOps dOps, rebalance c4s = .ok (s', wOps ++ dOps) ∧
      (∀ op ∈ wOps, ∃ a n, op = Op.subWithdraw a n) ∧
      (∀ op ∈ dOps, ∃ a n, op = Op.subTransfer a n) :=
  ⟨by decide, by decide, rebalance_twoPhase c4s (by decide) (by decide)⟩

/-! ### C5: rebalance is idempotent -/

theorem filterMap_eq_nil_of_none {l : List Dep} {f : Dep → Option Op}
    (h : ∀ d ∈ l, f d = none) : l.filterMap f = [] := by
  induction l with
  | nil => rfl
  | cons x t ih =>
      rw [List.filterMap_cons, h x (List.mem_cons_self x t)]
      exact ih fun d hd => h d (List.mem_cons_of_mem x hd)

/-- A state in which every registered deposit already holds its ideal
balance is a fixed point of `rebalance`, and the call moves no tokens. -/
theorem rebalance_fixed (t : Agg) (hw : weightSum t ≤ t.totalWeight) (hW : 0 < t.totalWeight)
    (hfix : ∀ d ∈ t.deposits, d.bal = idealBal (totalBalance t) t.totalWeight d.weight) :
    rebalance t = .ok (t, []) := by
  obtain ⟨b', hreb, hb⟩ := rebalance_spec t hw hW
  have hdep : t.deposits.map (fun d =>
      { d with bal := idealBal (totalBalance t) t.totalWeight d.weight }) = t.deposits := by
    have hcong : ∀ d ∈ t.deposits,
        (fun d => { d with bal := idealBal (totalBalance t) t.totalWeight d.weight }) d
          = (fun d => d) d := by
      intro d hd
      dsimp only
      rw [← hfix d hd]
    rw [List.map_congr_left hcong, List.map_id']
  have hwops : (t.deposits.filterMap (fun d =>
      if distOf (totalBalance t) t.totalWeight d < 0 then
        some (Op.subWithdraw d.addr (-(distOf (totalBalance t) t.totalWeight d)).toNat)
      else none)) = [] := by
    apply filterMap_eq_nil_of_none
    intro d hd
    rw [if_neg]
    have hz := hfix d hd
    unfold distOf
    omega
  have hdops : (t.deposits.filterMap (fun d =>
      if 0 < distOf (totalBalance t) t.totalWeight d then
        some (Op.subTransfer d.addr (distOf (totalBalance t) t.totalWeight d).toNat)
      else none)) = [] := by
    apply filterMap_eq_nil_of_none
    intro d hd
    rw [if_neg]
    have hz := hfix d hd
    unfold distOf
    omega
  have hSI : (t.deposits.map (fun d =>
      idealBal (totalBalance t) t.totalWeight d.weight)).sum = (t.deposits.map Dep.bal).sum := by
    have hcong : ∀ d ∈ t.deposits,
        (fun d => idealBal (totalBalance t) t.totalWeight d.weight) d = Dep.bal d := by
      intro d hd
      exact (hfix d hd).symm
    rw [List.map_congr_left hcong]
  have h4 : totalBalance t = (t.deposits.map Dep.bal).sum + t.aggBal := rfl
  have hb' : b' = t.aggBal := by omega
  rw [hreb, hdep, hwops, hdops, hb']
  rfl

/-- C5: with the registry invariant in force, if `rebalance()` succeeds then
a second `rebalance()` run immediately afterwards — no external transfers
and no weight or membership changes in between — returns exactly the same
state and performs no token movement. -/
theorem rebalance_idempotent (s : Agg) (h1 : wfWeights s) (hW : 0 < s.totalWeight)
    (s1 : Agg) (tr : List Op) (h : rebalance s = .ok (s1, tr)) :
    rebalance s1 = .ok (s1, []) := by
  have hw : weightSum s ≤ s.totalWeight := by
    unfold wfWeights at h1
    omega
  obtain ⟨b', hreb, hb⟩ := rebalance_spec s hw hW
  rw [hreb] at h
  simp only [Except.ok.injEq, Prod.mk.injEq] at h
  obtain ⟨hs1, htr⟩ := h
  have htbX : totalBalance { s with
      deposits := s.deposits.map (fun d =>
        { d with bal := idealBal (totalBalance s) s.totalWeight d.weight }),
      aggBal := b' } = totalBalance s := by
    have h5 : totalBalance { s with
        deposits := s.deposits.map (fun d =>
          { d with bal := idealBal (totalBalance s) s.totalWeight d.weight }),
        aggBal := b' }
        = (s.deposits.map (fun d =>
            idealBal (totalBalance s) s.totalWeight d.weight)).sum + b' := by
      unfold totalBalance underlyingSum
      dsimp only
      rw [List.map_map]
      rfl
    rw [h5]
    have h4 : totalBalance s = (s.deposits.map Dep.bal).sum + s.aggBal := rfl
    omega
  rw [← hs1]
  apply rebalance_fixed
  · unfold weightSum
    dsimp only
    rw [List.map_map]
    exact hw
  · exact hW
  · intro d hd
    dsimp only at hd ⊢
    rw [List.mem_map] at hd
    obtain ⟨e, he, rfl⟩ := hd
    rw [htbX]

theorem rebalance_idempotent_witness :
    wfWeights c5s ∧ 0 < c5s.totalWeight ∧
    rebalance c5s = .ok (c5s1, [Op.subTransfer 1 5]) ∧
    rebalance c5s1 = .ok (c5s1, []) :=
  ⟨by decide, by decide, by rfl,
    rebalance_idempotent c5s (by decide) (by decide) c5s1 [Op.subTransfer 1 5] (by rfl)⟩

end PCVAgg
